import Mathlib

/-!
Verification of the cache-archive restore engine of the `turbo` repository.

Names are modelled as lists of characters (`List Char`), mirroring the byte
strings that the Rust code works on. Pure functions of the source are
translated directly; filesystem effects are made explicit as a set of
canonical paths threaded through the entry restorers.
-/

deriving instance DecidableEq for Except

/-- Character list of a string literal. -/
def lit (s : String) : List Char := s.toList

/-- Embeds Rust `str::starts_with` on character lists. -/
def strStarts (pat s : List Char) : Bool := decide (pat <+: s)

/-- Embeds Rust `str::ends_with` on character lists. -/
def strEnds (pat s : List Char) : Bool := decide (pat <:+ s)

/-- Embeds Rust `str::contains` (substring search) on character lists. -/
def strContains (pat s : List Char) : Bool := decide (pat <:+: s)

/-- Result of the name validator; mirrors `PathValidation` in
`cache_archive/restore.rs`. -/
structure PathValidation where
  well_formed : Bool
  windows_safe : Bool
deriving DecidableEq, Repr

/-- The name validator `check_name` of `cache_archive/restore.rs` (lines
224-274), transliterated clause by clause: an empty name short-circuits with
both flags false; otherwise `well_formed` is cleared by the first matching
rule and `windows_safe` is cleared when the name contains a backslash. -/
def check_name (name : List Char) : PathValidation :=
  if name.isEmpty then
    { well_formed := false, windows_safe := false }
  else
    let wf0 : Bool := true
    let ws0 : Bool := true
    let wf1 : Bool :=
      if wf0 && (name == lit "." || name == lit "..") then false else wf0
    let wf2 : Bool :=
      if wf1 && (strStarts (lit "/") name || strStarts (lit "./") name ||
          strStarts (lit "../") name) then false else wf1
    let wf3 : Bool :=
      if wf2 && (strEnds (lit "/.") name || strEnds (lit "/..") name)
        then false else wf2
    let wf4 : Bool :=
      if wf3 && (strContains (lit "//") name || strContains (lit "/./") name ||
          strContains (lit "/../") name) then false else wf3
    let ws1 : Bool := if name.contains '\\' then false else ws0
    { well_formed := wf4, windows_safe := ws1 }

/-- The ill-formedness rule set exactly as the specification words it (spec
section 4.1): empty, exactly `.` or `..`, begins with `/`, `./` or `../`,
ends with `/.` or `/..`, or contains `//`, `/./` or `/../`. -/
def illFormedRules (name : List Char) : Bool :=
  name.isEmpty || name == lit "." || name == lit ".." ||
  strStarts (lit "/") name || strStarts (lit "./") name ||
  strStarts (lit "../") name ||
  strEnds (lit "/.") name || strEnds (lit "/..") name ||
  strContains (lit "//") name || strContains (lit "/./") name ||
  strContains (lit "/../") name

/-- Entry kinds read from the tar header type flag; mirrors the variants of
`tar::EntryType` that the engine can encounter (the character-device variant
is named `CharDev` here because `Char` is taken in Lean). -/
inductive EntryType where
  | Directory
  | Regular
  | Symlink
  | HardLink
  | CharDev
  | Block
  | Fifo
  | Continuous
deriving DecidableEq, Repr

/-- Debug name of an entry kind, as interpolated into the
`UnsupportedFileType` surface string. -/
def kindName : EntryType → List Char
  | .Directory => lit "Directory"
  | .Regular => lit "Regular"
  | .Symlink => lit "Symlink"
  | .HardLink => lit "Link"
  | .CharDev => lit "Char"
  | .Block => lit "Block"
  | .Fifo => lit "Fifo"
  | .Continuous => lit "Continuous"

/-- The error taxonomy of the restore engine, mirroring `CacheError` variants
used by `cache_archive/restore.rs` (the enum itself lives in
`crates/turborepo-cache/src/lib.rs`; backtrace payloads are omitted). -/
inductive CacheError where
  | MalformedName (name : List Char)
  | WindowsUnsafeName (name : List Char)
  | LinkTargetDoesNotExist (target : List Char)
  | UnsupportedFileType (t : EntryType)
  | WriteOutsideDirectory (target : List Char)
  | CycleDetected
  | IoError (msg : List Char)
deriving DecidableEq, Repr

/-- Modelled from the spec: the error surface strings of section 7 (the
`thiserror` display derivations live in `crates/turborepo-cache/src/lib.rs`,
which is not among the provided sources). -/
def errorSurface : CacheError → List Char
  | .MalformedName n => lit "file name is malformed: " ++ n
  | .WindowsUnsafeName _ => lit "file name is not Windows-safe"
  | .LinkTargetDoesNotExist _ => lit "link target does not exist"
  | .UnsupportedFileType t => lit "attempted to restore unsupported file type: " ++ kindName t
  | .WriteOutsideDirectory t => lit "tar attempts to write outside of directory: " ++ t
  | .CycleDetected => lit "links in the cache are cyclic"
  | .IoError m => lit "IO error: " ++ m

/-- Splits a character list at `/` separators; adjacent separators yield
empty components, like Rust's `str::split`. -/
def splitSlash : List Char → List (List Char)
  | [] => [[]]
  | c :: rest =>
    if c = '/' then [] :: splitSlash rest
    else
      match splitSlash rest with
      | [] => [[c]]
      | r :: rs => (c :: r) :: rs

/-- The path components that Rust's `Path::components` yields for a relative
name: the pieces between separators, with empty and `.` components removed. -/
def pathComponents (name : List Char) : List (List Char) :=
  (splitSlash name).filter (fun c => !(c.isEmpty || c == lit "."))

/-- Joins components with `/` separators, as collecting components into a
`PathBuf` does. -/
def joinSlash : List (List Char) → List Char
  | [] => []
  | [c] => c
  | c :: rest => c ++ '/' :: joinSlash rest

/-- `canonicalize_name` of `cache_archive/restore.rs` (lines 187-216): reject
names that fail `check_name`, then reassemble the name from its path
components, which removes any trailing separator. The Windows-only rejection
of non-Windows-safe names is compiled out on Unix and omitted here. -/
def canonicalize_name (name : List Char) : Except CacheError (List Char) :=
  let v := check_name name
  if !v.well_formed then .error (.MalformedName name)
  else .ok (joinSlash (pathComponents name))

/-- The tar header fields that the restore engine reads: entry kind, logical
path, and the optional link target. Mode bits, sizes and file bodies are not
consulted by any of the properties below and are omitted. -/
structure Header where
  typ : EntryType
  path : List Char
  linkName : Option (List Char)
deriving DecidableEq, Repr

/-- A canonical absolute path, kept as its list of components. -/
abbrev PathKey := List (List Char)

/-- The filesystem below the anchor, as the set of canonical absolute paths
that exist. -/
abbrev FS := List PathKey

def fsMem (fs : FS) (k : PathKey) : Bool := fs.contains k

def fsAdd (fs : FS) (k : PathKey) : FS := k :: fs

/-- Outcome of a restore step: success, a returned `CacheError`, or a Rust
panic (from `expect`), modelled as a distinguished outcome because a panic
is not an error value. -/
inductive RResult (α : Type) where
  | ok (a : α)
  | fail (e : CacheError)
  | panicked (msg : List Char)
deriving DecidableEq, Repr

/-- One step of lexical path cleaning: empty and `.` components vanish,
`..` pops the previous component, anything else is pushed. -/
def cleanStep (acc : PathKey) (c : List Char) : PathKey :=
  if c.isEmpty || c == lit "." then acc
  else if c == lit ".." then acc.dropLast
  else acc ++ [c]

/-- Canonical component list of the anchor path. -/
def anchorComps (anchor : List Char) : PathKey :=
  (splitSlash anchor).foldl cleanStep []

/-- Modelled from the spec: `canonicalize_linkname` of
`cache_archive/restore_symlink.rs` (not among the provided sources),
following spec section 9: start from the anchor, append the link's parent
directory components, join the raw target, and collapse `.` and `..`
lexically without consulting the filesystem. Escapes from the anchor are
not clamped here; the caller checks the anchor prefix. -/
def canonicalize_linkname (anchor processedName linkname : List Char) : PathKey :=
  ((splitSlash anchor) ++ (pathComponents processedName).dropLast ++
    splitSlash linkname).foldl cleanStep []

/-- Canonical absolute key of an entry restored at a processed relative
name. -/
def entryKey (anchor p : List Char) : PathKey :=
  anchorComps anchor ++ pathComponents p

/-- Modelled from the spec: the directory restorer of section 4.2
(`cache_archive/restore_directory.rs` is not among the provided sources).
Creates the directory idempotently below the anchor and returns the
anchored path; mode bits and I/O collisions are outside the model. -/
def restore_directory (anchor : List Char) (fs : FS) (h : Header) :
    RResult (List Char × FS) :=
  match canonicalize_name h.path with
  | .error e => .fail e
  | .ok p => .ok (p, fsAdd fs (entryKey anchor p))

/-- Modelled from the spec: the regular-file restorer of section 4.3
(`cache_archive/restore_regular.rs` is not among the provided sources).
Creates or overwrites the file and returns the anchored path; body
streaming, sizes and I/O collisions are outside the model. -/
def restore_regular (anchor : List Char) (fs : FS) (h : Header) :
    RResult (List Char × FS) :=
  match canonicalize_name h.path with
  | .error e => .fail e
  | .ok p => .ok (p, fsAdd fs (entryKey anchor p))

/-- Modelled from the spec: the pass-1 symlink restorer of section 4.4
(`cache_archive/restore_symlink.rs` is not among the provided sources).
The canonicalized target must start with the anchor, else
`WriteOutsideDirectory`; a target that does not exist on disk yet raises
`LinkTargetDoesNotExist`, which the caller turns into a deferral. -/
def restore_symlink (anchor : List Char) (fs : FS) (h : Header) :
    RResult (List Char × FS) :=
  match canonicalize_name h.path with
  | .error e => .fail e
  | .ok p =>
    match h.linkName with
    | none => .fail (.IoError (lit "symlink header without link name"))
    | some ln =>
      let target := canonicalize_linkname anchor p ln
      if !(decide (anchorComps anchor <+: target)) then
        .fail (.WriteOutsideDirectory ln)
      else if !(fsMem fs target) then .fail (.LinkTargetDoesNotExist ln)
      else .ok (p, fsAdd fs (entryKey anchor p))

/-- The entry dispatcher `restore_entry` of `cache_archive/restore.rs`
(lines 173-185): route by entry kind, any other kind is
`UnsupportedFileType`. -/
def restore_entry (anchor : List Char) (fs : FS) (e : Header) :
    RResult (List Char × FS) :=
  match e.typ with
  | .Directory => restore_directory anchor fs e
  | .Regular => restore_regular anchor fs e
  | .Symlink => restore_symlink anchor fs e
  | t => .fail (.UnsupportedFileType t)

/-- Pass 1 of `CacheReader::restore_entries` (lines 107-116): restore
entries in archive order, deferring symlinks whose target is missing and
aborting on the first other error. Returns the restored paths, the
deferred entries in archive order, and the resulting filesystem. -/
def pass1 (anchor : List Char) : FS → List Header →
    RResult (List (List Char) × List Header × FS)
  | fs, [] => .ok ([], [], fs)
  | fs, e :: rest =>
    match restore_entry anchor fs e with
    | .fail (.LinkTargetDoesNotExist _) =>
      match pass1 anchor fs rest with
      | .ok (r, d, fs') => .ok (r, e :: d, fs')
      | .fail err => .fail err
      | .panicked m => .panicked m
    | .fail err => .fail err
    | .panicked m => .panicked m
    | .ok (p, fs') =>
      match pass1 anchor fs' rest with
      | .ok (r, d, fs'') => .ok (p :: r, d, fs'')
      | .fail err => .fail err
      | .panicked m => .panicked m

/-- First index of a key in the node list, mirroring the `nodes` hash map of
`topologically_restore_symlinks`. -/
def keyIdx : List PathKey → PathKey → Option Nat
  | [], _ => none
  | k' :: rest, k => if k' == k then some 0 else (keyIdx rest k).map (· + 1)

/-- The pass-2 graph: node weights in insertion order (the petgraph node
list, indices are node ids), the edge list, and the `header_lookup` map
(front entry is the most recent insertion, so lookups see the last
insertion, like `HashMap::insert`). -/
structure GraphState where
  nodeKeys : List PathKey
  edges : List (Nat × Nat)
  headers : List (PathKey × Header)
deriving DecidableEq, Repr

/-- `nodes.entry(key).or_insert_with(|| graph.add_node(key))` of
`topologically_restore_symlinks`. -/
def insertNode (keys : List PathKey) (k : PathKey) : Nat × List PathKey :=
  match keyIdx keys k with
  | some i => (i, keys)
  | none => (keys.length, keys ++ [k])

/-- The per-entry processing of `topologically_restore_symlinks` (lines
132-143): canonicalize the entry name, build the source key, then read the
link name — `expect("symlink without linkname")` panics when it is absent —
and build the target key. -/
def processEntry (anchor : List Char) (h : Header) :
    RResult (List Char × PathKey × PathKey) :=
  match canonicalize_name h.path with
  | .error e => .fail e
  | .ok processedName =>
    let sourceKey := canonicalize_linkname anchor processedName processedName
    match h.linkName with
    | none => .panicked (lit "symlink without linkname")
    | some ln =>
      .ok (processedName, sourceKey, canonicalize_linkname anchor processedName ln)

/-- One iteration of the graph-building loop of
`topologically_restore_symlinks` (lines 132-154): insert both keys as
nodes (deduplicated), add the edge source → target, and record the header
keyed by the source (overwriting earlier entries with the same source). -/
def buildStep (anchor : List Char) (st : GraphState) (h : Header) :
    RResult GraphState :=
  match processEntry anchor h with
  | .fail e => .fail e
  | .panicked m => .panicked m
  | .ok (_, srcKey, tgtKey) =>
    let p1 := insertNode st.nodeKeys srcKey
    let p2 := insertNode p1.2 tgtKey
    .ok ⟨p2.2, st.edges ++ [(p1.1, p2.1)], (srcKey, h) :: st.headers⟩

/-- The graph-building loop over all deferred entries. -/
def buildGraph (anchor : List Char) : GraphState → List Header →
    RResult GraphState
  | st, [] => .ok st
  | st, h :: rest =>
    match buildStep anchor st h with
    | .ok st' => buildGraph anchor st' rest
    | .fail e => .fail e
    | .panicked m => .panicked m

/-- `header_lookup.get(key)`: the most recently inserted header for a key. -/
def lookupHeader (hs : List (PathKey × Header)) (k : PathKey) : Option Header :=
  (hs.find? (fun p => p.1 == k)).map (fun p => p.2)

/-- A node with no incoming edge from the remaining nodes. -/
def pickNext (edges : List (Nat × Nat)) (remaining : List Nat) : Option Nat :=
  remaining.find? (fun v => !(edges.any (fun e => e.2 == v && remaining.contains e.1)))

def topoAux (edges : List (Nat × Nat)) : Nat → List Nat → Option (List Nat)
  | 0, remaining => if remaining.isEmpty then some [] else none
  | fuel+1, remaining =>
    if remaining.isEmpty then some []
    else
      match pickNext edges remaining with
      | none => none
      | some v => (topoAux edges fuel (remaining.erase v)).map (fun l => v :: l)

/-- Topological sort with cycle detection, modelling
`petgraph::algo::toposort`: on success it returns an order of all nodes in
which every edge's source precedes its target; it fails exactly on cyclic
graphs. The tie-breaking order may differ from petgraph's DFS; every
property proved below is independent of the tie-break. -/
def toposort (n : Nat) (edges : List (Nat × Nat)) : Option (List Nat) :=
  topoAux edges n (List.range n)

/-- Modelled from the spec: pass-2 link creation
(`restore_symlink_with_missing_target` in `cache_archive/restore_symlink.rs`,
not among the provided sources): the link is created without requiring its
target to exist, and the anchored source path from the header is returned. -/
def restore_symlink_with_missing_target (anchor : List Char) (h : Header) :
    Except CacheError (List Char) :=
  match canonicalize_name h.path with
  | .error e => .error e
  | .ok p => .ok p

/-- The materialization loop of `topologically_restore_symlinks` (lines
159-167): walk the topological order, skip nodes without a header, create
the link for each node that has one. -/
def materialize (anchor : List Char) (st : GraphState) :
    List Nat → RResult (List (List Char))
  | [] => .ok []
  | i :: rest =>
    match st.nodeKeys[i]? with
    | none => materialize anchor st rest
    | some k =>
      match lookupHeader st.headers k with
      | none => materialize anchor st rest
      | some h =>
        match restore_symlink_with_missing_target anchor h with
        | .error e => .fail e
        | .ok p =>
          match materialize anchor st rest with
          | .ok r => .ok (p :: r)
          | .fail e => .fail e
          | .panicked m => .panicked m

/-- `CacheReader::topologically_restore_symlinks` (lines 123-170): build
the dependency graph of the deferred entries, toposort it (a cycle aborts
with `CycleDetected`), then materialize in topological order. -/
def topologically_restore_symlinks (anchor : List Char)
    (symlinks : List Header) : RResult (List (List Char)) :=
  match buildGraph anchor ⟨[], [], []⟩ symlinks with
  | .fail e => .fail e
  | .panicked m => .panicked m
  | .ok st =>
    match toposort st.nodeKeys.length st.edges with
    | none => .fail .CycleDetected
    | some ord => materialize anchor st ord

/-- `CacheReader::restore_entries` (lines 98-121): pass 1 over the archive
entries, then the deferred-symlink pass; the restored list is pass-1 output
followed by pass-2 output. -/
def restore_entries (anchor : List Char) (entries : List Header) (fs : FS) :
    RResult (List (List Char)) :=
  match pass1 anchor fs entries with
  | .fail e => .fail e
  | .panicked m => .panicked m
  | .ok (restored, symlinks, _) =>
    match topologically_restore_symlinks anchor symlinks with
    | .fail e => .fail e
    | .panicked m => .panicked m
    | .ok rs => .ok (restored ++ rs)

/-- The headers that pass 2 materializes, in materialization order. -/
def materializedHeaders (st : GraphState) (ord : List Nat) : List Header :=
  ord.filterMap (fun i => (st.nodeKeys[i]?).bind (lookupHeader st.headers))

def hasEdge (edges : List (Nat × Nat)) (u v : Nat) : Bool :=
  decide ((u, v) ∈ edges)

/-- Walks in the edge list: `isWalk edges u ws v` holds when `ws` lists the
successive vertices of a walk from `u` to `v`. -/
def isWalk (edges : List (Nat × Nat)) : Nat → List Nat → Nat → Bool
  | u, [], v => u == v
  | u, w :: ws, v => hasEdge edges u w && isWalk edges w ws v

/-- A directed cycle: a nonempty walk from some vertex back to itself. -/
def hasCycle (edges : List (Nat × Nat)) : Prop :=
  ∃ u ws, ws ≠ [] ∧ isWalk edges u ws u = true

/-- The canonicalized source key an entry contributes to the pass-2 graph,
when its processing succeeds. -/
def srcKeyOf (anchor : List Char) (h : Header) : Option PathKey :=
  match processEntry anchor h with
  | .ok (_, sk, _) => some sk
  | _ => none

def anchorEx : List Char := lit "/out"

def fsEx : FS := [anchorComps anchorEx]

def hdrOneTwo : Header := ⟨.Symlink, lit "one", some (lit "two")⟩

def hdrTwoThree : Header := ⟨.Symlink, lit "two", some (lit "three")⟩

def hdrTwoOne : Header := ⟨.Symlink, lit "two", some (lit "one")⟩

def keyOne : PathKey := [lit "out", lit "one"]

def keyTwo : PathKey := [lit "out", lit "two"]

def keyThree : PathKey := [lit "out", lit "three"]

def stCyc : GraphState :=
  ⟨[keyOne, keyTwo], [(0, 1), (1, 0)],
    [(keyTwo, hdrTwoOne), (keyOne, hdrOneTwo)]⟩

def stChain : GraphState :=
  ⟨[keyOne, keyTwo, keyThree], [(0, 1), (1, 2)],
    [(keyTwo, hdrTwoThree), (keyOne, hdrOneTwo)]⟩

def hdrOneThree : Header := ⟨.Symlink, lit "one", some (lit "three")⟩

def hdrOneReal : Header := ⟨.Symlink, lit "one", some (lit "real")⟩

def keyReal : PathKey := [lit "out", lit "real"]

def stClob : GraphState :=
  ⟨[keyOne, keyTwo, keyThree, keyReal], [(0, 1), (0, 2), (0, 3)],
    [(keyOne, hdrOneReal), (keyOne, hdrOneThree), (keyOne, hdrOneTwo)]⟩

/-- 32-bit truncation. -/
def w32 (n : Nat) : Nat := n % 4294967296

/-- 32-bit left rotation of a word already below two to the 32. -/
def rotl32 (b n : Nat) : Nat :=
  w32 ((n <<< b) ||| (n >>> (32 - b)))

/-- Big-endian bytes of a 32-bit word. -/
def be32 (n : Nat) : List Nat :=
  [(n >>> 24) % 256, (n >>> 16) % 256, (n >>> 8) % 256, n % 256]

/-- Big-endian bytes of a 64-bit word. -/
def be64 (n : Nat) : List Nat :=
  [(n >>> 56) % 256, (n >>> 48) % 256, (n >>> 40) % 256, (n >>> 32) % 256,
   (n >>> 24) % 256, (n >>> 16) % 256, (n >>> 8) % 256, n % 256]

/-- Big-endian 32-bit words of a byte list. -/
def toWords : List Nat → List Nat
  | b0 :: b1 :: b2 :: b3 :: rest =>
    (((b0 * 256 + b1) * 256 + b2) * 256 + b3) :: toWords rest
  | _ => []

/-- SHA-1 message-schedule extension of the 16 block words to 80 words. -/
def sha1ExtendLoop : Nat → List Nat → List Nat
  | 0, w => w
  | n + 1, w =>
    let i := w.length
    let word := rotl32 1 (((w.getD (i - 3) 0) ^^^ (w.getD (i - 8) 0)) ^^^
      ((w.getD (i - 14) 0) ^^^ (w.getD (i - 16) 0)))
    sha1ExtendLoop n (w ++ [word])

/-- The SHA-1 round function. -/
def sha1F (i b c d : Nat) : Nat :=
  if i < 20 then (b &&& c) ||| ((4294967295 ^^^ b) &&& d)
  else if i < 40 then b ^^^ c ^^^ d
  else if i < 60 then (b &&& c) ||| (b &&& d) ||| (c &&& d)
  else b ^^^ c ^^^ d

/-- The SHA-1 round constants. -/
def sha1K (i : Nat) : Nat :=
  if i < 20 then 0x5A827999
  else if i < 40 then 0x6ED9EBA1
  else if i < 60 then 0x8F1BBCDC
  else 0xCA62C1D6

/-- One SHA-1 round on the five-word state. -/
def sha1Round (i : Nat) (st : Nat × Nat × Nat × Nat × Nat) (wi : Nat) :
    Nat × Nat × Nat × Nat × Nat :=
  match st with
  | (a, b, c, d, e) =>
    (w32 (rotl32 5 a + sha1F i b c d + e + sha1K i + wi), a, rotl32 30 b, c, d)

/-- The 80 SHA-1 rounds over the message schedule. -/
def sha1Rounds : Nat → List Nat → (Nat × Nat × Nat × Nat × Nat) →
    Nat × Nat × Nat × Nat × Nat
  | _, [], st => st
  | i, wi :: rest, st => sha1Rounds (i + 1) rest (sha1Round i st wi)

/-- SHA-1 compression of one 64-byte block into the chaining state. -/
def sha1Block (h : Nat × Nat × Nat × Nat × Nat) (block : List Nat) :
    Nat × Nat × Nat × Nat × Nat :=
  match h, sha1Rounds 0 (sha1ExtendLoop 64 (toWords block)) h with
  | (h0, h1, h2, h3, h4), (a, b, c, d, e) =>
    (w32 (h0 + a), w32 (h1 + b), w32 (h2 + c), w32 (h3 + d), w32 (h4 + e))

/-- Split into 64-byte blocks (fuel-based recursion). -/
def chunks64 : Nat → List Nat → List (List Nat)
  | 0, _ => []
  | _ + 1, [] => []
  | fuel + 1, bytes => bytes.take 64 :: chunks64 fuel (bytes.drop 64)

/-- SHA-1 padding: a `0x80` byte, zeros to 56 mod 64, and the big-endian
64-bit bit length. -/
def sha1Pad (msg : List Nat) : List Nat :=
  msg ++ [128] ++ List.replicate ((119 - msg.length % 64) % 64) 0 ++
    be64 (8 * msg.length)

/-- The SHA-1 initialization vector. -/
def sha1Init : Nat × Nat × Nat × Nat × Nat :=
  (0x67452301, 0xEFCDAB89, 0x98BADCFE, 0x10325476, 0xC3D2E1F0)

/-- The SHA-1 digest (20 bytes) of a byte list. -/
def sha1Digest (msg : List Nat) : List Nat :=
  let padded := sha1Pad msg
  match (chunks64 (padded.length / 64 + 1) padded).foldl sha1Block sha1Init with
  | (h0, h1, h2, h3, h4) => be32 h0 ++ be32 h1 ++ be32 h2 ++ be32 h3 ++ be32 h4

/-- Lower-case hex digit. -/
def hexDigit (n : Nat) : Char :=
  if n < 10 then Char.ofNat (48 + n) else Char.ofNat (87 + n)

/-- Two hex digits of a byte. -/
def hexByte (b : Nat) : List Char := [hexDigit (b / 16), hexDigit (b % 16)]

/-- Lower-case hex encoding of a byte list, as `hex::encode` produces. -/
def hexEncode (bytes : List Nat) : List Char := (bytes.map hexByte).flatten

/-- UTF-8 bytes of an ASCII string literal. -/
def strBytes (s : String) : List Nat := s.toList.map Char.toNat

/-- ASCII bytes of the decimal representation of a number, as
`u64::to_string` produces. -/
def decimalBytes (n : Nat) : List Nat := (Nat.toDigits 10 n).map Char.toNat

/-- The buffered contents of a `sha1::Sha1` hasher. The `Digest` API
contract is that `finalize` returns the hash of the concatenation of all
`update` inputs, so the state is the byte string absorbed so far. -/
abbrev Sha1State := List Nat

def sha1_new : Sha1State := []

def sha1_update (st : Sha1State) (bytes : List Nat) : Sha1State := st ++ bytes

def sha1_finalize (st : Sha1State) : List Nat := sha1Digest st

/-- `git_like_hash_file` of `crates/turborepo-scm/src/manual.rs` (lines
12-23): a fresh SHA-1 hasher absorbs `"blob "`, the decimal metadata
length, a NUL byte and the file contents, in four separate `update` calls,
and the digest is hex-encoded. Reading the file is modelled by passing the
contents; the metadata length is a separate argument as in the source. -/
def git_like_hash_file (contents : List Nat) (metaLen : Nat) : List Char :=
  let hasher := sha1_new
  let hasher := sha1_update hasher (strBytes "blob ")
  let hasher := sha1_update hasher (decimalBytes metaLen)
  let hasher := sha1_update hasher [0]
  let hasher := sha1_update hasher contents
  hexEncode (sha1_finalize hasher)

theorem check_name_wf_eq_not_rules (name : List Char) :
    (check_name name).well_formed = !illFormedRules name := by
  simp only [check_name, illFormedRules]
  cases h0 : name.isEmpty
  · simp only [Bool.false_eq_true, if_false]
    generalize (name == lit ".") = b1
    generalize (name == lit "..") = b2
    generalize strStarts (lit "/") name = b3
    generalize strStarts (lit "./") name = b4
    generalize strStarts (lit "../") name = b5
    generalize strEnds (lit "/.") name = b6
    generalize strEnds (lit "/..") name = b7
    generalize strContains (lit "//") name = b8
    generalize strContains (lit "/./") name = b9
    generalize strContains (lit "/../") name = b10
    cases b1 <;> cases b2 <;> cases b3 <;> cases b4 <;> cases b5 <;>
      cases b6 <;> cases b7 <;> cases b8 <;> cases b9 <;> cases b10 <;> rfl
  · simp

/-- C1: for every input name, `check_name` reports `well_formed = false`
exactly when the name is empty, is exactly `.` or `..`, begins with `/`,
`./` or `../`, ends with `/.` or `/..`, or contains `//`, `/./` or `/../`;
all other names are reported well-formed. -/
theorem check_name_well_formed_iff (name : List Char) :
    (check_name name).well_formed = false ↔ illFormedRules name = true := by
  rw [check_name_wf_eq_not_rules]
  cases illFormedRules name <;> simp

/-- C5 counterexample: the empty name is reported `windows_safe = false`
even though it contains no backslash, refuting the claim that
`windows_safe = false` holds iff the name contains a backslash. -/
theorem check_name_windows_safe_empty_counterexample :
    (check_name []).windows_safe = false ∧ ([] : List Char).contains '\\' = false := by
  exact ⟨rfl, rfl⟩

/-- C5 (amended): the validator always returns both flags, and
`windows_safe = false` holds exactly when the name contains a backslash or
is empty (the empty name short-circuits with both flags false). -/
theorem check_name_windows_safe_iff (name : List Char) :
    (check_name name).windows_safe = false ↔
      (name.contains '\\' || name.isEmpty) = true := by
  simp only [check_name]
  cases h0 : name.isEmpty
  · simp only [Bool.false_eq_true, if_false, Bool.or_false]
    cases hc : name.contains '\\' <;> simp
  · simp

theorem splitSlash_ne_nil (s : List Char) : splitSlash s ≠ [] := by
  induction s with
  | nil => simp [splitSlash]
  | cons c rest ih =>
    simp only [splitSlash]
    by_cases h : c = '/'
    · simp [h]
    · simp only [h, if_false]
      cases hs : splitSlash rest with
      | nil => simp
      | cons r rs => simp

theorem splitSlash_snoc_slash (s : List Char) :
    splitSlash (s ++ ['/']) = splitSlash s ++ [[]] := by
  induction s with
  | nil => rfl
  | cons c rest ih =>
    simp only [List.cons_append, splitSlash]
    by_cases h : c = '/'
    · simp [h, ih]
    · simp only [h, if_false, List.append_eq]
      rw [ih]
      cases hs : splitSlash rest with
      | nil => exact absurd hs (splitSlash_ne_nil rest)
      | cons r rs => simp

theorem pathComponents_snoc_slash (s : List Char) :
    pathComponents (s ++ ['/']) = pathComponents s := by
  simp [pathComponents, splitSlash_snoc_slash, List.filter_append, List.filter]

theorem prefix_snoc_iff {α : Type} {p s : List α} {c : α} :
    p <+: s ++ [c] ↔ p <+: s ∨ p = s ++ [c] := by
  constructor
  · rintro ⟨t, ht⟩
    rcases List.eq_nil_or_concat t with rfl | ⟨t', d, rfl⟩
    · right; simpa using ht
    · left
      have h2 : (p ++ t') ++ [d] = s ++ [c] := by
        simpa [List.concat_eq_append, List.append_assoc] using ht
      have h3 : p ++ t' = s := by
        have h4 := congrArg List.dropLast h2
        simpa [List.dropLast_concat] using h4
      exact ⟨t', h3⟩
  · rintro (⟨t, rfl⟩ | rfl)
    · exact ⟨t ++ [c], by simp⟩
    · exact List.prefix_refl _

theorem suffix_getLast? {α : Type} {q l : List α} (h : q <:+ l) (x : α)
    (hq : q.getLast? = some x) : l.getLast? = some x := by
  obtain ⟨t, rfl⟩ := h
  rw [List.getLast?_append, hq]
  rfl

theorem singleton_prefix_iff_head {α : Type} {c : α} {l : List α} :
    [c] <+: l ↔ l.head? = some c := by
  cases l with
  | nil => simp
  | cons a t =>
    constructor
    · rintro ⟨t2, ht⟩
      simp only [List.singleton_append, List.cons.injEq] at ht
      simp [ht.1]
    · intro h
      simp only [List.head?_cons, Option.some.injEq] at h
      subst h
      exact ⟨t, rfl⟩

theorem suffix_snoc_cancel {α : Type} {q' s : List α} {c : α}
    (h : q' ++ [c] <:+ s ++ [c]) : q' <:+ s := by
  obtain ⟨t, ht⟩ := h
  have h2 : (t ++ q') ++ [c] = s ++ [c] := by
    simpa [List.append_assoc] using ht
  have h3 : t ++ q' = s := by
    have h4 := congrArg List.dropLast h2
    simpa [List.dropLast_concat] using h4
  exact ⟨t, h3⟩

theorem infix_snoc_iff {α : Type} {q s : List α} {c : α} :
    q <:+: s ++ [c] ↔ q <:+: s ∨ q <:+ s ++ [c] := by
  constructor
  · intro h
    have h2 : q.reverse <:+: (s ++ [c]).reverse := List.reverse_infix.mpr h
    rw [List.reverse_append] at h2
    simp only [List.reverse_cons, List.reverse_nil, List.nil_append,
      List.singleton_append] at h2
    rcases List.infix_cons_iff.mp h2 with hp | hi
    · right
      have h3 : q.reverse <+: (s ++ [c]).reverse := by
        rw [List.reverse_append]
        simpa using hp
      exact List.reverse_prefix.mp h3
    · left
      exact List.reverse_infix.mp (by simpa using hi)
  · rintro (h | h)
    · exact h.trans (List.prefix_append s [c]).isInfix
    · exact h.isInfix

theorem illFormedRules_snoc_slash (s : List Char)
    (hr : illFormedRules s = false)
    (hlast : s.getLast? ≠ some '/') :
    illFormedRules (s ++ ['/']) = false := by
  simp only [illFormedRules, Bool.or_eq_false_iff] at hr ⊢
  obtain ⟨⟨⟨⟨⟨⟨⟨⟨⟨⟨hE, hD1⟩, hD2⟩, hP1⟩, hP2⟩, hP3⟩, hS1⟩, hS2⟩, hC1⟩, hC2⟩, hC3⟩ := hr
  have hne : s ≠ [] := List.isEmpty_eq_false.mp hE
  rw [strStarts, decide_eq_false_iff_not] at hP1 hP2 hP3
  rw [strEnds, decide_eq_false_iff_not] at hS1 hS2
  rw [strContains, decide_eq_false_iff_not] at hC1 hC2 hC3
  rw [beq_eq_false_iff_ne] at hD1 hD2
  refine ⟨⟨⟨⟨⟨⟨⟨⟨⟨⟨?_, ?_⟩, ?_⟩, ?_⟩, ?_⟩, ?_⟩, ?_⟩, ?_⟩, ?_⟩, ?_⟩, ?_⟩
  · simp
  · rw [beq_eq_false_iff_ne]
    intro h
    have h2 := congrArg List.getLast? h
    rw [List.getLast?_concat] at h2
    exact absurd h2 (by decide)
  · rw [beq_eq_false_iff_ne]
    intro h
    have h2 := congrArg List.getLast? h
    rw [List.getLast?_concat] at h2
    exact absurd h2 (by decide)
  · rw [strStarts, decide_eq_false_iff_not]
    intro hp
    rcases prefix_snoc_iff.mp hp with hp2 | hp2
    · exact hP1 hp2
    · have h3 := congrArg List.dropLast hp2
      rw [List.dropLast_concat] at h3
      have h4 : s = [] := by rw [← h3]; decide
      exact hne h4
  · rw [strStarts, decide_eq_false_iff_not]
    intro hp
    rcases prefix_snoc_iff.mp hp with hp2 | hp2
    · exact hP2 hp2
    · have h3 := congrArg List.dropLast hp2
      rw [List.dropLast_concat] at h3
      have h4 : s = lit "." := by rw [← h3]; decide
      exact hD1 h4
  · rw [strStarts, decide_eq_false_iff_not]
    intro hp
    rcases prefix_snoc_iff.mp hp with hp2 | hp2
    · exact hP3 hp2
    · have h3 := congrArg List.dropLast hp2
      rw [List.dropLast_concat] at h3
      have h4 : s = lit ".." := by rw [← h3]; decide
      exact hD2 h4
  · rw [strEnds, decide_eq_false_iff_not]
    intro hs
    have h2 := suffix_getLast? hs '.' (by decide)
    rw [List.getLast?_concat] at h2
    exact absurd h2 (by decide)
  · rw [strEnds, decide_eq_false_iff_not]
    intro hs
    have h2 := suffix_getLast? hs '.' (by decide)
    rw [List.getLast?_concat] at h2
    exact absurd h2 (by decide)
  · rw [strContains, decide_eq_false_iff_not]
    intro hin
    rcases infix_snoc_iff.mp hin with hl | hr2
    · exact hC1 hl
    · have h2 : ['/'] ++ ['/'] <:+ s ++ ['/'] := by
        rw [show (['/'] ++ ['/'] : List Char) = lit "//" from by decide]
        exact hr2
      have h3 := suffix_snoc_cancel h2
      exact hlast (suffix_getLast? h3 '/' rfl)
  · rw [strContains, decide_eq_false_iff_not]
    intro hin
    rcases infix_snoc_iff.mp hin with hl | hr2
    · exact hC2 hl
    · have h2 : lit "/." ++ ['/'] <:+ s ++ ['/'] := by
        rw [show ((lit "/.") ++ ['/'] : List Char) = lit "/./" from by decide]
        exact hr2
      exact hS1 (suffix_snoc_cancel h2)
  · rw [strContains, decide_eq_false_iff_not]
    intro hin
    rcases infix_snoc_iff.mp hin with hl | hr2
    · exact hC3 hl
    · have h2 : lit "/.." ++ ['/'] <:+ s ++ ['/'] := by
        rw [show ((lit "/..") ++ ['/'] : List Char) = lit "/../" from by decide]
        exact hr2
      exact hS2 (suffix_snoc_cancel h2)

theorem check_name_snoc_slash (s : List Char)
    (hwf : (check_name s).well_formed = true)
    (hlast : s.getLast? ≠ some '/') :
    (check_name (s ++ ['/'])).well_formed = true := by
  have h1 : illFormedRules s = false := by
    have h := (check_name_wf_eq_not_rules s).symm.trans hwf
    simpa using h
  rw [check_name_wf_eq_not_rules, illFormedRules_snoc_slash s h1 hlast]
  rfl

/-- C7: appending a trailing slash does not change canonicalization: for any
well-formed name with no trailing separator already,
`canonicalize_name (s ++ "/") = canonicalize_name s`; in particular
`canonicalize_name "foo/" = canonicalize_name "foo"`. -/
theorem canonicalize_name_trailing_slash (s : List Char)
    (hwf : (check_name s).well_formed = true)
    (hlast : s.getLast? ≠ some '/') :
    canonicalize_name (s ++ ['/']) = canonicalize_name s := by
  have h2 := check_name_snoc_slash s hwf hlast
  simp only [canonicalize_name, hwf, h2, Bool.not_true, Bool.false_eq_true,
    if_false, ite_false]
  rw [pathComponents_snoc_slash]

/-- C7 witness: instantiated at the name `foo` from the specification. -/
theorem canonicalize_name_trailing_slash_witness :
    (check_name (lit "foo")).well_formed = true ∧
      (lit "foo").getLast? ≠ some '/' ∧
      canonicalize_name (lit "foo/") = canonicalize_name (lit "foo") := by
  refine ⟨by decide, by decide, ?_⟩
  have h := canonicalize_name_trailing_slash (lit "foo") (by decide) (by decide)
  rw [show lit "foo/" = lit "foo" ++ ['/'] from by decide]
  exact h

theorem pickNext_mem {edges : List (Nat × Nat)} {remaining : List Nat} {v : Nat}
    (h : pickNext edges remaining = some v) : v ∈ remaining :=
  List.mem_of_find?_eq_some h

theorem pickNext_no_incoming {edges : List (Nat × Nat)} {remaining : List Nat}
    {v : Nat} (h : pickNext edges remaining = some v) {a b : Nat}
    (he : (a, b) ∈ edges) (hb : b = v) (ha : a ∈ remaining) : False := by
  have hp := List.find?_some h
  rw [Bool.not_eq_true'] at hp
  rw [List.any_eq_false] at hp
  have h2 := hp (a, b) he
  simp only [hb, beq_self_eq_true, Bool.true_and] at h2
  rw [List.contains_eq_any_beq] at h2
  exact h2 (List.any_eq_true.mpr ⟨a, ha, beq_self_eq_true a⟩)

theorem topoAux_perm (edges : List (Nat × Nat)) :
    ∀ (fuel : Nat) (remaining ord : List Nat),
      topoAux edges fuel remaining = some ord → ord.Perm remaining := by
  intro fuel
  induction fuel with
  | zero =>
    intro remaining ord h
    unfold topoAux at h
    by_cases hre : remaining.isEmpty = true
    · rw [if_pos hre] at h
      injection h with h2
      subst h2
      simp [List.isEmpty_iff.mp hre]
    · rw [if_neg hre] at h
      cases h
  | succ fuel ih =>
    intro remaining ord h
    unfold topoAux at h
    by_cases hre : remaining.isEmpty = true
    · rw [if_pos hre] at h
      injection h with h2
      subst h2
      simp [List.isEmpty_iff.mp hre]
    · rw [if_neg hre] at h
      cases hpick : pickNext edges remaining with
      | none => rw [hpick] at h; cases h
      | some v =>
        rw [hpick] at h
        dsimp only at h
        cases hrec : topoAux edges fuel (remaining.erase v) with
        | none => rw [hrec] at h; cases h
        | some l =>
          rw [hrec] at h
          simp only [Option.map_some'] at h
          injection h with h2
          subst h2
          have hperm := ih (remaining.erase v) l hrec
          have hv := pickNext_mem hpick
          exact (hperm.cons v).trans (List.perm_cons_erase hv).symm

theorem topoAux_edge_indexOf (edges : List (Nat × Nat)) :
    ∀ (fuel : Nat) (remaining ord : List Nat),
      topoAux edges fuel remaining = some ord →
      ∀ a b : Nat, (a, b) ∈ edges → a ∈ remaining → b ∈ remaining →
        ord.indexOf a < ord.indexOf b := by
  intro fuel
  induction fuel with
  | zero =>
    intro remaining ord h a b he ha hb
    unfold topoAux at h
    by_cases hre : remaining.isEmpty = true
    · rw [List.isEmpty_iff.mp hre] at ha
      cases ha
    · rw [if_neg hre] at h
      cases h
  | succ fuel ih =>
    intro remaining ord h a b he ha hb
    unfold topoAux at h
    by_cases hre : remaining.isEmpty = true
    · rw [List.isEmpty_iff.mp hre] at ha
      cases ha
    · rw [if_neg hre] at h
      cases hpick : pickNext edges remaining with
      | none => rw [hpick] at h; cases h
      | some v =>
        rw [hpick] at h
        dsimp only at h
        cases hrec : topoAux edges fuel (remaining.erase v) with
        | none => rw [hrec] at h; cases h
        | some l =>
          rw [hrec] at h
          simp only [Option.map_some'] at h
          injection h with h2
          subst h2
          by_cases hbv : b = v
          · exact (pickNext_no_incoming hpick he hbv ha).elim
          · by_cases hav : a = v
            · subst hav
              rw [List.indexOf_cons, List.indexOf_cons]
              have h1 : (a == a) = true := beq_self_eq_true a
              have h2 : (a == b) = false := by
                rw [beq_eq_false_iff_ne]
                exact fun hc => hbv hc.symm
              rw [h1, h2]
              simp
            · have ha' : a ∈ remaining.erase v := (List.mem_erase_of_ne hav).mpr ha
              have hb' : b ∈ remaining.erase v := (List.mem_erase_of_ne hbv).mpr hb
              have h3 := ih (remaining.erase v) l hrec a b he ha' hb'
              rw [List.indexOf_cons, List.indexOf_cons]
              have h1 : (v == a) = false := by
                rw [beq_eq_false_iff_ne]
                exact fun hc => hav hc.symm
              have h2 : (v == b) = false := by
                rw [beq_eq_false_iff_ne]
                exact fun hc => hbv hc.symm
              rw [h1, h2]
              simpa using Nat.succ_lt_succ h3

theorem topoAux_walk_indexOf (edges : List (Nat × Nat)) (fuel : Nat)
    (remaining ord : List Nat) (h : topoAux edges fuel remaining = some ord)
    (hends : ∀ e ∈ edges, e.1 ∈ remaining ∧ e.2 ∈ remaining) :
    ∀ ws u v, isWalk edges u ws v = true → ws ≠ [] →
      ord.indexOf u < ord.indexOf v := by
  intro ws
  induction ws with
  | nil => intro u v _ hne; exact absurd rfl hne
  | cons w ws ih =>
    intro u v hwalk _
    simp only [isWalk, Bool.and_eq_true] at hwalk
    obtain ⟨hedge, hrest⟩ := hwalk
    rw [hasEdge, decide_eq_true_eq] at hedge
    have hmem := hends (u, w) hedge
    have h1 : ord.indexOf u < ord.indexOf w :=
      topoAux_edge_indexOf edges fuel remaining ord h u w hedge hmem.1 hmem.2
    cases ws with
    | nil =>
      simp only [isWalk] at hrest
      rw [beq_iff_eq] at hrest
      subst hrest
      exact h1
    | cons w2 ws2 =>
      have h2 : ord.indexOf w < ord.indexOf v := ih w v hrest (by simp)
      exact h1.trans h2

theorem toposort_edges_indexOf (n : Nat) (edges : List (Nat × Nat))
    (ord : List Nat) (h : toposort n edges = some ord) {a b : Nat}
    (he : (a, b) ∈ edges) (ha : a < n) (hb : b < n) :
    ord.indexOf a < ord.indexOf b :=
  topoAux_edge_indexOf edges n (List.range n) ord h a b he
    (List.mem_range.mpr ha) (List.mem_range.mpr hb)

theorem toposort_perm (n : Nat) (edges : List (Nat × Nat)) (ord : List Nat)
    (h : toposort n edges = some ord) : ord.Perm (List.range n) :=
  topoAux_perm edges n (List.range n) ord h

theorem toposort_none_of_cycle (n : Nat) (edges : List (Nat × Nat))
    (hends : ∀ e ∈ edges, e.1 < n ∧ e.2 < n) (hcyc : hasCycle edges) :
    toposort n edges = none := by
  cases htp : toposort n edges with
  | none => rfl
  | some ord =>
    obtain ⟨u, ws, hne, hwalk⟩ := hcyc
    have hends' : ∀ e ∈ edges, e.1 ∈ List.range n ∧ e.2 ∈ List.range n := by
      intro e hemem
      exact ⟨List.mem_range.mpr (hends e hemem).1,
        List.mem_range.mpr (hends e hemem).2⟩
    have hlt := topoAux_walk_indexOf edges n (List.range n) ord htp hends'
      ws u u hwalk hne
    exact absurd hlt (lt_irrefl _)

theorem mem_of_getLast? {α : Type} {l : List α} {a : α}
    (h : l.getLast? = some a) : a ∈ l := by
  induction l with
  | nil => cases h
  | cons b t ih =>
    cases t with
    | nil =>
      simp only [List.getLast?_singleton, Option.some.injEq] at h
      simp [h]
    | cons c t2 =>
      rw [List.getLast?_cons_cons] at h
      exact List.mem_cons_of_mem _ (ih h)

theorem getLast?_cons_or {α : Type} (a : α) (l : List α) (o : Option α) :
    ((a :: l).getLast?).or o = (l.getLast?).or (some a) := by
  cases l with
  | nil => rfl
  | cons b t =>
    rw [List.getLast?_cons_cons]
    cases hl : (b :: t).getLast? with
    | none => exact absurd (List.getLast?_eq_none_iff.mp hl) (by simp)
    | some y => rfl

theorem keyIdx_lt_length {keys : List PathKey} {k : PathKey} {i : Nat}
    (h : keyIdx keys k = some i) : i < keys.length := by
  induction keys generalizing i with
  | nil => cases h
  | cons k' rest ih =>
    unfold keyIdx at h
    by_cases hk : (k' == k) = true
    · rw [if_pos hk] at h
      injection h with h2
      subst h2
      simp
    · rw [if_neg hk] at h
      cases hrec : keyIdx rest k with
      | none => rw [hrec] at h; cases h
      | some j =>
        rw [hrec] at h
        simp only [Option.map_some'] at h
        injection h with h2
        subst h2
        simpa using Nat.succ_lt_succ (ih hrec)

theorem keyIdx_getElem {keys : List PathKey} {k : PathKey} {i : Nat}
    (h : keyIdx keys k = some i) : keys[i]? = some k := by
  induction keys generalizing i with
  | nil => cases h
  | cons k' rest ih =>
    unfold keyIdx at h
    by_cases hk : (k' == k) = true
    · rw [if_pos hk] at h
      injection h with h2
      subst h2
      simp [beq_iff_eq.mp hk]
    · rw [if_neg hk] at h
      cases hrec : keyIdx rest k with
      | none => rw [hrec] at h; cases h
      | some j =>
        rw [hrec] at h
        simp only [Option.map_some'] at h
        injection h with h2
        subst h2
        simpa using ih hrec

theorem keyIdx_none_not_mem {keys : List PathKey} {k : PathKey}
    (h : keyIdx keys k = none) : k ∉ keys := by
  induction keys with
  | nil => simp
  | cons k' rest ih =>
    unfold keyIdx at h
    by_cases hk : (k' == k) = true
    · rw [if_pos hk] at h; cases h
    · rw [if_neg hk] at h
      have hrec : keyIdx rest k = none := by
        cases hrec2 : keyIdx rest k with
        | none => rfl
        | some j =>
          rw [hrec2] at h
          simp only [Option.map_some'] at h
          cases h
      intro hmem
      rcases List.mem_cons.mp hmem with heq | hmem2
      · exact hk (heq ▸ beq_self_eq_true k)
      · exact ih hrec hmem2

theorem insertNode_getElem (keys : List PathKey) (k : PathKey) :
    (insertNode keys k).2[(insertNode keys k).1]? = some k := by
  unfold insertNode
  cases hk : keyIdx keys k with
  | some i => exact keyIdx_getElem hk
  | none => exact List.getElem?_concat_length keys k

theorem insertNode_keys_extend (keys : List PathKey) (k : PathKey) :
    keys <+: (insertNode keys k).2 := by
  unfold insertNode
  cases hk : keyIdx keys k with
  | some i => exact List.prefix_refl _
  | none => exact List.prefix_append _ _

theorem insertNode_lt (keys : List PathKey) (k : PathKey) :
    (insertNode keys k).1 < (insertNode keys k).2.length := by
  unfold insertNode
  cases hk : keyIdx keys k with
  | some i => exact keyIdx_lt_length hk
  | none => simp

theorem insertNode_nodup (keys : List PathKey) (k : PathKey)
    (h : keys.Nodup) : (insertNode keys k).2.Nodup := by
  unfold insertNode
  cases hk : keyIdx keys k with
  | some i => exact h
  | none =>
    rw [← List.concat_eq_append]
    exact List.Nodup.concat (keyIdx_none_not_mem hk) h

theorem isPrefix_getElem?_eq {α : Type} {l l' : List α} (h : l <+: l')
    {i : Nat} {x : α} (hx : l[i]? = some x) : l'[i]? = some x := by
  obtain ⟨t, rfl⟩ := h
  rw [List.getElem?_append]
  have hlt : i < l.length := (List.getElem?_eq_some_iff.mp hx).1
  rw [if_pos hlt]
  exact hx

theorem mem_of_getElem?_eq_some {α : Type} {l : List α} {i : Nat} {x : α}
    (h : l[i]? = some x) : x ∈ l := by
  obtain ⟨hlt, heq⟩ := List.getElem?_eq_some_iff.mp h
  exact heq ▸ List.getElem_mem hlt

theorem lookupHeader_cons (kh : PathKey × Header)
    (hs : List (PathKey × Header)) (k : PathKey) :
    lookupHeader (kh :: hs) k =
      if (kh.1 == k) = true then some kh.2 else lookupHeader hs k := by
  unfold lookupHeader
  rw [List.find?_cons]
  cases hpa : (kh.1 == k) <;> simp [hpa]

theorem buildStep_ok_inv (anchor : List Char) (st st' : GraphState) (h : Header)
    (hs : buildStep anchor st h = .ok st') :
    ∃ pn sk tk, processEntry anchor h = .ok (pn, sk, tk) ∧
      st' = ⟨(insertNode (insertNode st.nodeKeys sk).2 tk).2,
             st.edges ++ [((insertNode st.nodeKeys sk).1,
               (insertNode (insertNode st.nodeKeys sk).2 tk).1)],
             (sk, h) :: st.headers⟩ := by
  unfold buildStep at hs
  cases hproc : processEntry anchor h with
  | fail e => rw [hproc] at hs; cases hs
  | panicked m => rw [hproc] at hs; cases hs
  | ok trip =>
    obtain ⟨pn, sk, tk⟩ := trip
    rw [hproc] at hs
    dsimp only at hs
    injection hs with h2
    exact ⟨pn, sk, tk, rfl, h2.symm⟩

theorem buildGraph_nodeKeys_extend (anchor : List Char) :
    ∀ (hs : List Header) (st0 st : GraphState),
      buildGraph anchor st0 hs = .ok st → st0.nodeKeys <+: st.nodeKeys := by
  intro hs
  induction hs with
  | nil =>
    intro st0 st h
    unfold buildGraph at h
    injection h with h2
    subst h2
    exact List.prefix_refl _
  | cons e rest ih =>
    intro st0 st h
    unfold buildGraph at h
    cases hstep : buildStep anchor st0 e with
    | fail err => rw [hstep] at h; cases h
    | panicked m => rw [hstep] at h; cases h
    | ok st1 =>
      rw [hstep] at h
      dsimp only at h
      obtain ⟨pn, sk, tk, hproc, hst1⟩ := buildStep_ok_inv anchor st0 st1 e hstep
      have hpre : st0.nodeKeys <+: st1.nodeKeys := by
        rw [hst1]
        exact (insertNode_keys_extend _ _).trans (insertNode_keys_extend _ _)
      exact hpre.trans (ih st1 st h)

theorem buildGraph_edges_lt (anchor : List Char) :
    ∀ (hs : List Header) (st0 st : GraphState),
      buildGraph anchor st0 hs = .ok st →
      (∀ e ∈ st0.edges, e.1 < st0.nodeKeys.length ∧ e.2 < st0.nodeKeys.length) →
      ∀ e ∈ st.edges, e.1 < st.nodeKeys.length ∧ e.2 < st.nodeKeys.length := by
  intro hs
  induction hs with
  | nil =>
    intro st0 st h h0
    unfold buildGraph at h
    injection h with h2
    subst h2
    exact h0
  | cons e rest ih =>
    intro st0 st h h0
    unfold buildGraph at h
    cases hstep : buildStep anchor st0 e with
    | fail err => rw [hstep] at h; cases h
    | panicked m => rw [hstep] at h; cases h
    | ok st1 =>
      rw [hstep] at h
      dsimp only at h
      obtain ⟨pn, sk, tk, hproc, hst1⟩ := buildStep_ok_inv anchor st0 st1 e hstep
      refine ih st1 st h ?_
      subst hst1
      intro ed hed
      dsimp only at hed ⊢
      rcases List.mem_append.mp hed with h1 | h1
      · have h2 := h0 ed h1
        have hle : st0.nodeKeys.length ≤
            ((insertNode (insertNode st0.nodeKeys sk).2 tk).2).length :=
          ((insertNode_keys_extend _ _).trans (insertNode_keys_extend _ _)).length_le
        exact ⟨lt_of_lt_of_le h2.1 hle, lt_of_lt_of_le h2.2 hle⟩
      · have h2 : ed = ((insertNode st0.nodeKeys sk).1,
            (insertNode (insertNode st0.nodeKeys sk).2 tk).1) := by
          simpa using h1
        subst h2
        refine ⟨?_, insertNode_lt _ _⟩
        exact lt_of_lt_of_le (insertNode_lt st0.nodeKeys sk)
          (insertNode_keys_extend _ _).length_le

theorem buildGraph_nodup (anchor : List Char) :
    ∀ (hs : List Header) (st0 st : GraphState),
      buildGraph anchor st0 hs = .ok st → st0.nodeKeys.Nodup →
        st.nodeKeys.Nodup := by
  intro hs
  induction hs with
  | nil =>
    intro st0 st h h0
    unfold buildGraph at h
    injection h with h2
    subst h2
    exact h0
  | cons e rest ih =>
    intro st0 st h h0
    unfold buildGraph at h
    cases hstep : buildStep anchor st0 e with
    | fail err => rw [hstep] at h; cases h
    | panicked m => rw [hstep] at h; cases h
    | ok st1 =>
      rw [hstep] at h
      dsimp only at h
      obtain ⟨pn, sk, tk, hproc, hst1⟩ := buildStep_ok_inv anchor st0 st1 e hstep
      refine ih st1 st h ?_
      subst hst1
      exact insertNode_nodup _ _ (insertNode_nodup _ _ h0)

theorem buildGraph_headers_last (anchor : List Char) :
    ∀ (hs : List Header) (st0 st : GraphState),
      buildGraph anchor st0 hs = .ok st → ∀ k : PathKey,
        lookupHeader st.headers k =
          ((hs.filter (fun h => srcKeyOf anchor h == some k)).getLast?).or
            (lookupHeader st0.headers k) := by
  intro hs
  induction hs with
  | nil =>
    intro st0 st h k
    unfold buildGraph at h
    injection h with h2
    subst h2
    simp
  | cons e rest ih =>
    intro st0 st h k
    unfold buildGraph at h
    cases hstep : buildStep anchor st0 e with
    | fail err => rw [hstep] at h; cases h
    | panicked m => rw [hstep] at h; cases h
    | ok st1 =>
      rw [hstep] at h
      dsimp only at h
      obtain ⟨pn, sk, tk, hproc, hst1⟩ := buildStep_ok_inv anchor st0 st1 e hstep
      have hrec := ih st1 st h k
      rw [hrec]
      subst hst1
      dsimp only
      have hsrc : srcKeyOf anchor e = some sk := by
        unfold srcKeyOf
        rw [hproc]
      rw [lookupHeader_cons]
      dsimp only
      rw [List.filter_cons]
      by_cases hks : (sk == k) = true
      · rw [if_pos hks]
        have hpe : (srcKeyOf anchor e == some k) = true := by
          rw [hsrc]
          simpa using hks
        rw [if_pos hpe]
        rw [getLast?_cons_or]
      · rw [if_neg hks]
        have hpe : (srcKeyOf anchor e == some k) = false := by
          rw [hsrc]
          simpa using hks
        rw [hpe]
        simp

theorem buildGraph_headers_src (anchor : List Char) :
    ∀ (hs : List Header) (st0 st : GraphState),
      buildGraph anchor st0 hs = .ok st →
      (∀ k h, lookupHeader st0.headers k = some h →
        ∃ pn tk, processEntry anchor h = .ok (pn, k, tk)) →
      ∀ k h, lookupHeader st.headers k = some h →
        ∃ pn tk, processEntry anchor h = .ok (pn, k, tk) := by
  intro hs
  induction hs with
  | nil =>
    intro st0 st h h0
    unfold buildGraph at h
    injection h with h2
    subst h2
    exact h0
  | cons e rest ih =>
    intro st0 st h h0
    unfold buildGraph at h
    cases hstep : buildStep anchor st0 e with
    | fail err => rw [hstep] at h; cases h
    | panicked m => rw [hstep] at h; cases h
    | ok st1 =>
      rw [hstep] at h
      dsimp only at h
      obtain ⟨pn, sk, tk, hproc, hst1⟩ := buildStep_ok_inv anchor st0 st1 e hstep
      refine ih st1 st h ?_
      subst hst1
      intro k hh hl
      rw [lookupHeader_cons] at hl
      dsimp only at hl
      by_cases hks : (sk == k) = true
      · rw [if_pos hks] at hl
        injection hl with h2
        subst h2
        exact ⟨pn, tk, (beq_iff_eq.mp hks) ▸ hproc⟩
      · rw [if_neg hks] at hl
        exact h0 k hh hl

theorem buildGraph_src_mem (anchor : List Char) :
    ∀ (hs : List Header) (st0 st : GraphState),
      buildGraph anchor st0 hs = .ok st →
      ∀ e ∈ hs, ∀ pn sk tk, processEntry anchor e = .ok (pn, sk, tk) →
        sk ∈ st.nodeKeys := by
  intro hs
  induction hs with
  | nil =>
    intro st0 st h e he
    cases he
  | cons e0 rest ih =>
    intro st0 st h e he pn sk tk hproc2
    unfold buildGraph at h
    cases hstep : buildStep anchor st0 e0 with
    | fail err => rw [hstep] at h; cases h
    | panicked m => rw [hstep] at h; cases h
    | ok st1 =>
      rw [hstep] at h
      dsimp only at h
      obtain ⟨pn0, sk0, tk0, hproc, hst1⟩ := buildStep_ok_inv anchor st0 st1 e0 hstep
      rcases List.mem_cons.mp he with heq | hmem
      · subst heq
        rw [hproc2] at hproc
        injection hproc with h2
        have hsk : sk0 = sk := by
          have h3 := congrArg (fun t => t.2.1) h2
          simpa using h3.symm
        subst hsk
        have hm1 : sk0 ∈ st1.nodeKeys := by
          rw [hst1]
          dsimp only
          exact (insertNode_keys_extend _ _).subset
            (mem_of_getElem?_eq_some (insertNode_getElem st0.nodeKeys sk0))
        exact (buildGraph_nodeKeys_extend anchor rest st1 st h).subset hm1
      · exact ih st1 st h e hmem pn sk tk hproc2

/-- C3: whenever pass 1 succeeds and the dependency graph built from the
deferred entries contains a cycle, the whole restore fails with
`CycleDetected`, whose surface string is `links in the cache are cyclic`. -/
theorem restore_cycle_detected (anchor : List Char) (entries : List Header)
    (fs : FS) (restored : List (List Char)) (deferred : List Header)
    (fs2 : FS) (st : GraphState)
    (hp1 : pass1 anchor fs entries = .ok (restored, deferred, fs2))
    (hbuild : buildGraph anchor ⟨[], [], []⟩ deferred = .ok st)
    (hcyc : hasCycle st.edges) :
    restore_entries anchor entries fs = .fail .CycleDetected ∧
      errorSurface .CycleDetected = lit "links in the cache are cyclic" := by
  constructor
  · unfold restore_entries
    rw [hp1]
    dsimp only
    unfold topologically_restore_symlinks
    rw [hbuild]
    dsimp only
    have hends := buildGraph_edges_lt anchor deferred ⟨[], [], []⟩ st hbuild
      (fun e he => absurd he (List.not_mem_nil e))
    rw [toposort_none_of_cycle st.nodeKeys.length st.edges hends hcyc]
  · rfl

/-- C3 witness: the archive `one → two`, `two → one` defers both links and
the deferred graph is the two-cycle, so restore fails with CycleDetected. -/
theorem restore_cycle_detected_witness :
    pass1 anchorEx fsEx [hdrOneTwo, hdrTwoOne] =
      .ok ([], [hdrOneTwo, hdrTwoOne], fsEx) ∧
    buildGraph anchorEx ⟨[], [], []⟩ [hdrOneTwo, hdrTwoOne] = .ok stCyc ∧
    restore_entries anchorEx [hdrOneTwo, hdrTwoOne] fsEx =
      .fail .CycleDetected := by
  refine ⟨by decide, by decide, ?_⟩
  exact (restore_cycle_detected anchorEx [hdrOneTwo, hdrTwoOne] fsEx []
    [hdrOneTwo, hdrTwoOne] fsEx stCyc (by decide) (by decide)
    ⟨0, [1, 0], by decide, by decide⟩).1

/-- C2 counterexample: in the archive `one → two`, `two → three` with an
empty anchor directory, both links are deferred; link `one` points at key
`/out/two`, which is exactly the source key of the deferred link `two` and
does not exist on disk, yet the restore materializes `one` BEFORE `two`
(the output order is `[one, two]`), refuting the claim that every link's
target is materialized before its dependent link. -/
theorem pass2_targets_first_counterexample :
    restore_entries anchorEx [hdrOneTwo, hdrTwoThree] fsEx =
      .ok [lit "one", lit "two"] ∧
    processEntry anchorEx hdrOneTwo = .ok (lit "one", keyOne, keyTwo) ∧
    processEntry anchorEx hdrTwoThree = .ok (lit "two", keyTwo, keyThree) ∧
    fsMem fsEx keyTwo = false := by
  exact ⟨by decide, by decide, by decide, by decide⟩

/-- C2 (amended): the deferred-symlink resolver materializes every link
BEFORE its target, not after it: for every edge source → target of the
pass-2 graph, the source node strictly precedes the target node in the
topological materialization order, so a link's target is guaranteed to
exist only after the pass completes, and links are dangling when created. -/
theorem pass2_sources_before_targets (anchor : List Char)
    (symlinks : List Header) (st : GraphState) (ord : List Nat) (a b : Nat)
    (hbuild : buildGraph anchor ⟨[], [], []⟩ symlinks = .ok st)
    (htopo : toposort st.nodeKeys.length st.edges = some ord)
    (hedge : (a, b) ∈ st.edges) :
    ord.indexOf a < ord.indexOf b := by
  have hends := buildGraph_edges_lt anchor symlinks ⟨[], [], []⟩ st hbuild
    (fun e he => absurd he (List.not_mem_nil e))
  have hb := hends (a, b) hedge
  exact toposort_edges_indexOf st.nodeKeys.length st.edges ord htopo
    hedge hb.1 hb.2

/-- C2 witness: in the chain `one → two`, `two → three` the materialization
order is node 0 (`one`) before node 1 (`two`), matching the edge 0 → 1. -/
theorem pass2_sources_before_targets_witness :
    buildGraph anchorEx ⟨[], [], []⟩ [hdrOneTwo, hdrTwoThree] = .ok stChain ∧
    toposort stChain.nodeKeys.length stChain.edges = some [0, 1, 2] ∧
    [0, 1, 2].indexOf 0 < [0, 1, 2].indexOf 1 :=
  ⟨by decide, by decide,
    pass2_sources_before_targets anchorEx [hdrOneTwo, hdrTwoThree] stChain
      [0, 1, 2] 0 1 (by decide) (by decide) (by decide)⟩

/-- C9: a deferred symlink whose canonicalized target key equals its own
canonicalized source key produces a self-loop edge, the toposort fails, and
the resolver returns `CycleDetected`, even with only a single entry. -/
theorem self_loop_cycle_detected (anchor : List Char) (h : Header)
    (pn : List Char) (k : PathKey)
    (hproc : processEntry anchor h = .ok (pn, k, k)) :
    topologically_restore_symlinks anchor [h] = .fail .CycleDetected := by
  have hbuild : buildGraph anchor ⟨[], [], []⟩ [h] =
      .ok ⟨[k], [(0, 0)], [(k, h)]⟩ := by
    simp [buildGraph, buildStep, hproc, insertNode, keyIdx]
  unfold topologically_restore_symlinks
  rw [hbuild]
  dsimp only
  rw [show (([k] : List PathKey).length = 1) from rfl]
  rw [show toposort 1 [(0, 0)] = none from by decide]

/-- C9 witness: the single entry `one → one` below anchor `/out` has source
and target key both `/out/one` and is rejected with CycleDetected. -/
theorem self_loop_cycle_detected_witness :
    processEntry anchorEx ⟨.Symlink, lit "one", some (lit "one")⟩ =
      .ok (lit "one", keyOne, keyOne) ∧
    topologically_restore_symlinks anchorEx
      [⟨.Symlink, lit "one", some (lit "one")⟩] = .fail .CycleDetected :=
  ⟨by decide,
    self_loop_cycle_detected anchorEx ⟨.Symlink, lit "one", some (lit "one")⟩
      (lit "one") keyOne (by decide)⟩

/-- C10: a deferred entry whose header has no link name makes
`topologically_restore_symlinks` panic through
`expect("symlink without linkname")` instead of returning an error value:
the function is not total over such headers. -/
theorem missing_linkname_panics (anchor : List Char) (h : Header)
    (pn : List Char) (hln : h.linkName = none)
    (hname : canonicalize_name h.path = .ok pn) :
    topologically_restore_symlinks anchor [h] =
      .panicked (lit "symlink without linkname") := by
  have hproc : processEntry anchor h =
      .panicked (lit "symlink without linkname") := by
    unfold processEntry
    rw [hname, hln]
  have hbuild : buildGraph anchor ⟨[], [], []⟩ [h] =
      .panicked (lit "symlink without linkname") := by
    unfold buildGraph buildStep
    rw [hproc]
  unfold topologically_restore_symlinks
  rw [hbuild]

/-- C10 witness: a symlink header for `one` with no link name. -/
theorem missing_linkname_panics_witness :
    (Header.mk .Symlink (lit "one") none).linkName = none ∧
    topologically_restore_symlinks anchorEx
      [⟨.Symlink, lit "one", none⟩] =
      .panicked (lit "symlink without linkname") :=
  ⟨rfl, missing_linkname_panics anchorEx ⟨.Symlink, lit "one", none⟩
    (lit "one") rfl (by decide)⟩

theorem pass1_cons (anchor : List Char) (fs : FS) (e : Header)
    (rest : List Header) :
    pass1 anchor fs (e :: rest) =
      match restore_entry anchor fs e with
      | .fail (.LinkTargetDoesNotExist _) =>
        match pass1 anchor fs rest with
        | .ok (r, d, fs2) => .ok (r, e :: d, fs2)
        | .fail err => .fail err
        | .panicked m => .panicked m
      | .fail err => .fail err
      | .panicked m => .panicked m
      | .ok (p, fs2) =>
        match pass1 anchor fs2 rest with
        | .ok (r, d, fs3) => .ok (p :: r, d, fs3)
        | .fail err => .fail err
        | .panicked m => .panicked m := rfl

theorem pass1_append (anchor : List Char) :
    ∀ (pre : List Header) (fs : FS) (r : List (List Char)) (d : List Header)
      (fs2 : FS) (rest : List Header),
      pass1 anchor fs pre = .ok (r, d, fs2) →
      pass1 anchor fs (pre ++ rest) =
        match pass1 anchor fs2 rest with
        | .ok (r2, d2, fs3) => .ok (r ++ r2, d ++ d2, fs3)
        | .fail e => .fail e
        | .panicked m => .panicked m := by
  intro pre
  induction pre with
  | nil =>
    intro fs r d fs2 rest h
    unfold pass1 at h
    injection h with h2
    simp only [Prod.mk.injEq] at h2
    obtain ⟨h3, h4, h5⟩ := h2
    subst h3
    subst h4
    subst h5
    rw [List.nil_append]
    cases hrest : pass1 anchor fs rest with
    | ok t2 =>
      obtain ⟨r2, d2, f3⟩ := t2
      simp
    | fail e2 => rfl
    | panicked m2 => rfl
  | cons e pre2 ih =>
    intro fs r d fs2 rest h
    rw [pass1_cons] at h
    rw [List.cons_append, pass1_cons]
    cases hre : restore_entry anchor fs e with
    | ok pfs =>
      obtain ⟨p, fs1⟩ := pfs
      rw [hre] at h
      dsimp only at h ⊢
      cases hrec : pass1 anchor fs1 pre2 with
      | ok t1 =>
        obtain ⟨r1, d1, f1⟩ := t1
        rw [hrec] at h
        dsimp only at h
        injection h with h2
        simp only [Prod.mk.injEq] at h2
        obtain ⟨h3, h4, h5⟩ := h2
        subst h3
        subst h4
        subst h5
        rw [ih fs1 r1 d1 f1 rest hrec]
        cases hrest : pass1 anchor f1 rest with
        | ok t2 =>
          obtain ⟨r2, d2, f3⟩ := t2
          simp
        | fail e2 => dsimp only
        | panicked m2 => dsimp only
      | fail e1 => rw [hrec] at h; dsimp only at h; cases h
      | panicked m1 => rw [hrec] at h; dsimp only at h; cases h
    | fail err =>
      cases err with
      | LinkTargetDoesNotExist tgt =>
        rw [hre] at h
        dsimp only at h ⊢
        cases hrec : pass1 anchor fs pre2 with
        | ok t1 =>
          obtain ⟨r1, d1, f1⟩ := t1
          rw [hrec] at h
          dsimp only at h
          injection h with h2
          simp only [Prod.mk.injEq] at h2
          obtain ⟨h3, h4, h5⟩ := h2
          subst h3
          subst h4
          subst h5
          rw [ih fs r1 d1 f1 rest hrec]
          cases hrest : pass1 anchor f1 rest with
          | ok t2 =>
            obtain ⟨r2, d2, f3⟩ := t2
            simp
          | fail e2 => dsimp only
          | panicked m2 => dsimp only
        | fail e1 => rw [hrec] at h; dsimp only at h; cases h
        | panicked m1 => rw [hrec] at h; dsimp only at h; cases h
      | MalformedName n => rw [hre] at h; dsimp only at h; cases h
      | WindowsUnsafeName n => rw [hre] at h; dsimp only at h; cases h
      | UnsupportedFileType t => rw [hre] at h; dsimp only at h; cases h
      | WriteOutsideDirectory t => rw [hre] at h; dsimp only at h; cases h
      | CycleDetected => rw [hre] at h; dsimp only at h; cases h
      | IoError m => rw [hre] at h; dsimp only at h; cases h
    | panicked m => rw [hre] at h; dsimp only at h; cases h

/-- C6: an archive entry whose kind is not directory, regular or symlink
makes the restore fail with `UnsupportedFileType` carrying the kind name;
the result does not depend on any entry after the offending one, so nothing
past it is materialized or appended to the restored list. -/
theorem unsupported_type_fail_fast (anchor : List Char) (fs : FS)
    (pre post : List Header) (bad : Header)
    (r : List (List Char)) (d : List Header) (fs2 : FS)
    (hkind : bad.typ ≠ .Directory ∧ bad.typ ≠ .Regular ∧ bad.typ ≠ .Symlink)
    (hpre : pass1 anchor fs pre = .ok (r, d, fs2)) :
    restore_entries anchor (pre ++ bad :: post) fs =
      .fail (.UnsupportedFileType bad.typ) ∧
    errorSurface (.UnsupportedFileType bad.typ) =
      lit "attempted to restore unsupported file type: " ++ kindName bad.typ := by
  constructor
  · have hbad : restore_entry anchor fs2 bad =
        .fail (.UnsupportedFileType bad.typ) := by
      unfold restore_entry
      cases htyp : bad.typ with
      | Directory => exact absurd htyp hkind.1
      | Regular => exact absurd htyp hkind.2.1
      | Symlink => exact absurd htyp hkind.2.2
      | HardLink => rfl
      | CharDev => rfl
      | Block => rfl
      | Fifo => rfl
      | Continuous => rfl
    have hbp : pass1 anchor fs2 (bad :: post) =
        .fail (.UnsupportedFileType bad.typ) := by
      unfold pass1
      rw [hbad]
    unfold restore_entries
    rw [pass1_append anchor pre fs r d fs2 (bad :: post) hpre, hbp]
  · rfl

/-- C6 witness: after a directory `sub`, a FIFO entry aborts the restore
with the Fifo kind, independently of the regular file that follows it. -/
theorem unsupported_type_fail_fast_witness :
    pass1 anchorEx fsEx [⟨.Directory, lit "sub", none⟩] =
      .ok ([lit "sub"], [], [[lit "out", lit "sub"], [lit "out"]]) ∧
    restore_entries anchorEx
      ([⟨.Directory, lit "sub", none⟩] ++ ⟨.Fifo, lit "fifo", none⟩ ::
        [⟨.Regular, lit "x", none⟩]) fsEx =
      .fail (.UnsupportedFileType .Fifo) := by
  refine ⟨by decide, ?_⟩
  exact (unsupported_type_fail_fast anchorEx fsEx [⟨.Directory, lit "sub", none⟩]
    [⟨.Regular, lit "x", none⟩] ⟨.Fifo, lit "fifo", none⟩
    [lit "sub"] [] [[lit "out", lit "sub"], [lit "out"]]
    ⟨by decide, by decide, by decide⟩ (by decide)).1

theorem filterMap_guard {α β : Type} (q : α → Bool) (y : β) (l : List α) :
    l.filterMap (fun a => if q a = true then some y else none) =
      (l.filter q).map (fun _ => y) := by
  induction l with
  | nil => rfl
  | cons a t ih =>
    by_cases hq : q a = true <;>
      simp [List.filterMap_cons, List.filter_cons, hq, ih]

theorem filter_eq_singleton_of_unique {α : Type} {l : List α} {q : α → Bool}
    {a : α} (hnd : (l.filter q).Nodup) (ha : a ∈ l.filter q)
    (huniq : ∀ x ∈ l.filter q, x = a) : l.filter q = [a] := by
  cases hl : l.filter q with
  | nil => rw [hl] at ha; cases ha
  | cons x t =>
    rw [hl] at ha huniq hnd
    have hx : x = a := huniq x (List.mem_cons_self _ _)
    subst hx
    cases t with
    | nil => rfl
    | cons y t2 =>
      have hy : y = x := huniq y (by simp)
      subst hy
      simp at hnd

/-- C4: when several deferred symlink entries share the same canonicalized
source key, only the header of the LAST such entry in archive order is
retained in the header map and is the only one materialized by pass 2:
exactly one link per source key is created, from the last header. -/
theorem clobber_keeps_last_header (anchor : List Char)
    (symlinks : List Header) (st : GraphState) (ord : List Nat)
    (k : PathKey) (hLast : Header)
    (hbuild : buildGraph anchor ⟨[], [], []⟩ symlinks = .ok st)
    (htopo : toposort st.nodeKeys.length st.edges = some ord)
    (hlastdef : (symlinks.filter
      (fun h => srcKeyOf anchor h == some k)).getLast? = some hLast) :
    lookupHeader st.headers k = some hLast ∧
    (materializedHeaders st ord).filter
      (fun h => srcKeyOf anchor h == some k) = [hLast] := by
  have hlook : lookupHeader st.headers k = some hLast := by
    have h1 := buildGraph_headers_last anchor symlinks ⟨[], [], []⟩ st hbuild k
    rw [hlastdef] at h1
    rw [show lookupHeader (GraphState.mk [] [] []).headers k = none from rfl] at h1
    rw [Option.or_none] at h1
    exact h1
  refine ⟨hlook, ?_⟩
  have hnodup : st.nodeKeys.Nodup :=
    buildGraph_nodup anchor symlinks ⟨[], [], []⟩ st hbuild List.nodup_nil
  have hperm : ord.Perm (List.range st.nodeKeys.length) :=
    toposort_perm _ _ _ htopo
  have hmemk : k ∈ st.nodeKeys := by
    have hmemLast : hLast ∈ symlinks.filter
        (fun h => srcKeyOf anchor h == some k) := mem_of_getLast? hlastdef
    rw [List.mem_filter] at hmemLast
    obtain ⟨hmem1, hp⟩ := hmemLast
    have hsk : srcKeyOf anchor hLast = some k := beq_iff_eq.mp hp
    unfold srcKeyOf at hsk
    cases hproc : processEntry anchor hLast with
    | ok trip =>
      obtain ⟨pn, sk, tk⟩ := trip
      rw [hproc] at hsk
      dsimp only at hsk
      injection hsk with hsk2
      subst hsk2
      exact buildGraph_src_mem anchor symlinks ⟨[], [], []⟩ st hbuild hLast
        hmem1 pn sk tk hproc
    | fail e => rw [hproc] at hsk; cases hsk
    | panicked m => rw [hproc] at hsk; cases hsk
  obtain ⟨ik, hik⟩ := List.getElem?_of_mem hmemk
  have hiklt : ik < st.nodeKeys.length := (List.getElem?_eq_some_iff.mp hik).1
  have hsrcinv := buildGraph_headers_src anchor symlinks ⟨[], [], []⟩ st hbuild
    (fun k2 h2 hl2 => nomatch hl2)
  unfold materializedHeaders
  rw [List.filter_filterMap]
  have hcong : ∀ i ∈ ord,
      Option.filter (fun h => srcKeyOf anchor h == some k)
        ((st.nodeKeys[i]?).bind (lookupHeader st.headers)) =
      (if (st.nodeKeys[i]? == some k) = true then some hLast else none) := by
    intro i hi
    have hilt : i < st.nodeKeys.length :=
      List.mem_range.mp (hperm.mem_iff.mp hi)
    obtain ⟨ki, hki⟩ : ∃ ki, st.nodeKeys[i]? = some ki :=
      ⟨_, List.getElem?_eq_getElem hilt⟩
    rw [hki, Option.some_bind]
    cases hlk : lookupHeader st.headers ki with
    | none =>
      have hne : ((some ki : Option PathKey) == some k) = false := by
        rw [beq_eq_false_iff_ne]
        intro hc
        injection hc with hc2
        subst hc2
        rw [hlook] at hlk
        cases hlk
      rw [hne]
      simp [Option.filter]
    | some h2 =>
      obtain ⟨pn2, tk2, hproc2⟩ := hsrcinv ki h2 hlk
      have hs2 : srcKeyOf anchor h2 = some ki := by
        unfold srcKeyOf
        rw [hproc2]
      by_cases hkk : ki = k
      · subst hkk
        have hh2 : h2 = hLast := by
          rw [hlook] at hlk
          injection hlk with h3
          exact h3.symm
        subst hh2
        simp [Option.filter, hs2]
      · have hb : ((some ki : Option PathKey) == some k) = false := by
          rw [beq_eq_false_iff_ne]
          intro hc
          injection hc with hc2
          exact hkk hc2
        have hb2 : (srcKeyOf anchor h2 == some k) = false := by
          rw [hs2]
          exact hb
        rw [hb]
        simp [Option.filter, hb2]
  rw [List.filterMap_congr hcong]
  rw [filterMap_guard (fun i => (st.nodeKeys[i]? == some k)) hLast ord]
  have hfil : ord.filter (fun i => (st.nodeKeys[i]? == some k)) = [ik] := by
    have hpermf := hperm.filter (fun i => (st.nodeKeys[i]? == some k))
    have hrange : (List.range st.nodeKeys.length).filter
        (fun i => (st.nodeKeys[i]? == some k)) = [ik] := by
      apply filter_eq_singleton_of_unique
      · exact List.Nodup.filter _ (List.nodup_range _)
      · rw [List.mem_filter]
        refine ⟨List.mem_range.mpr hiklt, ?_⟩
        rw [hik]
        exact beq_self_eq_true _
      · intro x hx
        rw [List.mem_filter] at hx
        obtain ⟨hx1, hx2⟩ := hx
        have hx3 : st.nodeKeys[x]? = some k := beq_iff_eq.mp hx2
        have hxlt : x < st.nodeKeys.length :=
          (List.getElem?_eq_some_iff.mp hx3).1
        exact List.getElem?_inj hxlt hnodup (hx3.trans hik.symm)
    rw [hrange] at hpermf
    exact List.perm_singleton.mp hpermf
  rw [hfil]
  simp

/-- C4 witness: the clobber archive `one → two`, `one → three`, `one → real`
retains only the last header `one → real` and materializes exactly it. -/
theorem clobber_keeps_last_header_witness :
    buildGraph anchorEx ⟨[], [], []⟩ [hdrOneTwo, hdrOneThree, hdrOneReal] =
      .ok stClob ∧
    toposort stClob.nodeKeys.length stClob.edges = some [0, 1, 2, 3] ∧
    ([hdrOneTwo, hdrOneThree, hdrOneReal].filter
      (fun h => srcKeyOf anchorEx h == some keyOne)).getLast? =
        some hdrOneReal ∧
    lookupHeader stClob.headers keyOne = some hdrOneReal ∧
    (materializedHeaders stClob [0, 1, 2, 3]).filter
      (fun h => srcKeyOf anchorEx h == some keyOne) = [hdrOneReal] := by
  have h := clobber_keeps_last_header anchorEx
    [hdrOneTwo, hdrOneThree, hdrOneReal] stClob [0, 1, 2, 3] keyOne hdrOneReal
    (by decide) (by decide) (by decide)
  exact ⟨by decide, by decide, by decide, h.1, h.2⟩

/-- C8: for every file, the content hasher produces the hex-encoded SHA-1
of the byte string `"blob "` followed by the decimal file length, a NUL
byte, and the file contents: the four incremental updates absorb exactly
that concatenation. -/
theorem git_like_hash_file_spec (contents : List Nat) :
    git_like_hash_file contents contents.length =
      hexEncode (sha1Digest (strBytes "blob " ++
        decimalBytes contents.length ++ [0] ++ contents)) := by
  unfold git_like_hash_file sha1_new sha1_update sha1_finalize
  simp [List.append_assoc]

set_option maxRecDepth 4000 in
/-- Validation of the SHA-1 model against the repository's own recorded
hash of `some-file-contents` in the tests of `manual.rs`. -/
theorem git_like_hash_file_repo_vector :
    git_like_hash_file (strBytes "some-file-contents") 18 =
      lit "7e59c6a6ea9098c6d3beb00e753e2c54ea502311" := by decide

set_option maxRecDepth 4000 in
/-- Validation of the SHA-1 model against git's well-known empty-blob
hash. -/
theorem git_like_hash_file_empty_vector :
    git_like_hash_file [] 0 =
      lit "e69de29bb2d1d6434b8b29ae775ad8c2e48c5391" := by decide
